import Mathlib

/-!
Shallow embedding of the lock-free MPMC FIFO queue (`queues/hazard_queue`)
and the hazard-pointer reclamation facility (`synchro/hazard`) of the
Cpp-Util repository, together with theorems settling the spec's claims.

The queue is modelled sequentially: a state is the chain of nodes from
`head_` to `tail_` (the `next_` pointers are the list structure), plus the
two relaxed counters.  In a single-threaded execution every CAS in the
source succeeds deterministically, so the loops of `enqueue(node*)` and
`try_dequeue` become structural recursion on the chain.
-/

namespace CppUtil

/-! ### util/atomic_optional.tpp -/

/-- Model of `util::atomic_optional<T>`: an `initialized` atomic flag plus raw
storage.  `store` holds the bits placement-new'ed by the value
constructor; `invalidate` clears only the flag, never the bits, exactly as
in the source. -/
structure atomic_optional (α : Type) where
  initialized : Bool
  store : Option α
deriving Repr, DecidableEq

namespace atomic_optional

/-- Default constructor: `initialized(false)`, storage untouched. -/
def mkEmpty (α : Type) : atomic_optional α := ⟨false, none⟩

/-- Value constructor: `initialized(true)`, placement-new of the value. -/
def mkVal {α : Type} (v : α) : atomic_optional α := ⟨true, some v⟩

/-- Source `valid()`: relaxed load of `initialized`. -/
def valid {α : Type} (a : atomic_optional α) : Bool := a.initialized

/-- Source `get()`: pointer to the storage, regardless of `initialized`. -/
def get {α : Type} (a : atomic_optional α) : Option α := a.store

/-- Source `invalidate()`: `compare_exchange_strong(expected = true, false)` on
`initialized`; returns whether the CAS succeeded. -/
def invalidate {α : Type} (a : atomic_optional α) : atomic_optional α × Bool :=
  if a.initialized then ({ a with initialized := false }, true) else (a, false)

/-- Iterated `invalidate` with no re-initialization in between: returns the
final slot state and the number of calls that returned `true`. -/
def invalidateRun {α : Type} : Nat → atomic_optional α → atomic_optional α × Nat
  | 0, a => (a, 0)
  | Nat.succ n, a =>
    let (a', won) := invalidate a
    let (a'', wins) := invalidateRun n a'
    (a'', (if won then 1 else 0) + wins)

end atomic_optional

/-! ### queues/hazard_queue: the sequential model

A queue state is the node chain from `head_` (front of the list) to
`tail_` (back of the list); each node's `val_` is an `atomic_optional`,
and the `next_` pointer of the node at position `i` points to the node at
position `i+1` (null for the tail node). -/

/-- Visible state of `hazard_queue<T>`: node chain plus the two counters. -/
structure hazard_queue (α : Type) where
  chain : List (atomic_optional α)
  insert_version : Nat
  remove_version : Nat
deriving Repr, DecidableEq

namespace hazard_queue

/-- The constructor: one default-constructed (valueless) node, both
counters zero, `head_ = tail_ = n`. -/
def init (α : Type) : hazard_queue α :=
  ⟨[atomic_optional.mkEmpty α], 0, 0⟩

/-- Source `empty()`: load `insert_version_`, load `remove_version_`, compare. -/
def empty {α : Type} (q : hazard_queue α) : Bool :=
  q.insert_version == q.remove_version

/-- Source `full()`: always false (the queue is unbounded). -/
def full {α : Type} (_q : hazard_queue α) : Bool := false

/-- The private `enqueue(node* n)`: CAS `tail_->next_` from null to `n`
(sequentially the first attempt succeeds), swing `tail_` to `n`, bump
`insert_version_`. -/
def enqueue_node {α : Type} (q : hazard_queue α) (n : atomic_optional α) :
    hazard_queue α :=
  ⟨q.chain ++ [n], q.insert_version + 1, q.remove_version⟩

/-- The public `enqueue(T t)`: allocate `new node(std::move(t))`, then
link it. -/
def enqueue {α : Type} (q : hazard_queue α) (v : α) : hazard_queue α :=
  enqueue_node q (atomic_optional.mkVal v)

/-- Source `try_dequeue()`: the dequeue loop, with the chain making all CAS
outcomes deterministic:
* chain `[n]` (`head_ == tail_`): if `n->val_` is valid, invalidate it and
  return its value; otherwise the queue is empty, return the empty
  optional;
* chain `n :: m :: rest` (`head_ != tail_`): `head_->next_` is `m`
  (non-null), the head CAS succeeds, `n` is excised and retired; if
  `n->val_` is valid return its value, otherwise restart the loop on the
  new head. -/
def try_dequeue_loop {α : Type} (i r : Nat) :
    List (atomic_optional α) → hazard_queue α × Option α
  | [] => (⟨[], i, r⟩, none)
  | [n] =>
    if n.valid then
      (⟨[(atomic_optional.invalidate n).1], i, r + 1⟩, n.store)
    else (⟨[n], i, r⟩, none)
  | n :: m :: rest =>
    if n.valid then (⟨m :: rest, i, r + 1⟩, n.store)
    else try_dequeue_loop i r (m :: rest)

def try_dequeue {α : Type} (q : hazard_queue α) :
    hazard_queue α × Option α :=
  try_dequeue_loop q.insert_version q.remove_version q.chain

/-- Blocking `dequeue()`: retry `try_dequeue` (yielding in between) until
it returns a value; modelled with explicit fuel. -/
def dequeue_fuel {α : Type} :
    Nat → hazard_queue α → hazard_queue α × Option α
  | 0, q => (q, none)
  | Nat.succ f, q =>
    match try_dequeue q with
    | (q', some v) => (q', some v)
    | (q', none) => dequeue_fuel f q'

/-- The value a node contributes to the queue's contents: its storage when
its `val_` slot is valid, nothing otherwise. -/
def aval {α : Type} (n : atomic_optional α) : Option α :=
  if n.initialized then n.store else none

/-- Values held by a chain, front to back: the valid `val_` slots. -/
def valsL {α : Type} (chain : List (atomic_optional α)) : List α :=
  chain.filterMap aval

/-- Values currently held by the queue, front to back. -/
def vals {α : Type} (q : hazard_queue α) : List α := valsL q.chain

/-- Chain well-formedness, maintained over every completed operation:
the chain is never empty, every node behind the head holds a valid value,
and a valid slot's storage is populated. -/
def wfChain {α : Type} (chain : List (atomic_optional α)) : Prop :=
  chain ≠ [] ∧
  (∀ n ∈ chain.tail, n.initialized = true) ∧
  (∀ n ∈ chain, n.initialized = true → n.store.isSome)

/-- Queue well-formedness: chain well-formedness plus the counter
identity. -/
def wf {α : Type} (q : hazard_queue α) : Prop :=
  wfChain q.chain ∧ q.insert_version = q.remove_version + (vals q).length

/-- States reachable by completed operations from the constructor. -/
inductive reachable {α : Type} : hazard_queue α → Prop
  | init : reachable (init α)
  | enq {q : hazard_queue α} (v : α) : reachable q → reachable (enqueue q v)
  | deq {q : hazard_queue α} : reachable q → reachable (try_dequeue q).1

/-- A single producer enqueuing `vs` in order, left to right. -/
def enqueueAll {α : Type} (q : hazard_queue α) (vs : List α) :
    hazard_queue α :=
  vs.foldl enqueue q

/-- Performs `k` consecutive blocking `dequeue()` calls (each completing on its
first `try_dequeue` attempt), collecting the returned values in order. -/
def dequeueN {α : Type} : Nat → hazard_queue α → hazard_queue α × List (Option α)
  | 0, q => (q, [])
  | Nat.succ k, q =>
    let p := dequeue_fuel 1 q
    let rec' := dequeueN k p.1
    (rec'.1, p.2 :: rec'.2)

/-- Sequential operation scripts over a queue. -/
inductive QOp (α : Type) where
  | enq (v : α)
  | deq
deriving Repr, DecidableEq

/-- Run a script of operations on a queue, collecting the result of every
`try_dequeue` in order. -/
def runOps {α : Type} : hazard_queue α → List (QOp α) → hazard_queue α × List (Option α)
  | q, [] => (q, [])
  | q, QOp.enq v :: ops => runOps (enqueue q v) ops
  | q, QOp.deq :: ops =>
    let p := try_dequeue q
    let rec' := runOps p.1 ops
    (rec'.1, p.2 :: rec'.2)

/-- Number of enqueue operations in a script. -/
def countEnqs {α : Type} (ops : List (QOp α)) : Nat :=
  ops.countP fun op => match op with | QOp.enq _ => true | QOp.deq => false

/-- Number of value-returning dequeues among the collected results. -/
def countSomes {α : Type} (outs : List (Option α)) : Nat :=
  outs.countP Option.isSome

/-- The public `enqueue(T t)` with the allocation outcome made explicit.
`new node(std::move(t))` runs strictly before `enqueue(node*)`; `none`
models a throwing allocation, in which case the (noexcept) linking loop is
never entered.  The Bool reports success. -/
def enqueue_alloc {α : Type} (q : hazard_queue α)
    (alloc : Option (atomic_optional α)) : hazard_queue α × Bool :=
  match alloc with
  | none => (q, false)
  | some n => (enqueue_node q n, true)

end hazard_queue

open hazard_queue

/-- The queue state after `enqueue 1; enqueue 2; try_dequeue` starting from
the constructor. -/
def c6_state : hazard_queue Nat :=
  (try_dequeue (enqueue (enqueue (init Nat) 1) 2)).1

/-! ### synchro/hazard.cpp: retirement lists and the reclamation scan

Pointers are abstracted as naturals; a deleter (a function pointer in the
source) is an opaque tag, and "invoking" deleters is modelled by returning
the list of entries whose deleters ran, in invocation order. -/

/-- Abstract machine address. -/
abbrev Ptr := Nat

/-- An `rlist_t` entry: `pair<void*, hazard_record::deleter_t>`. -/
structure RetiredEntry where
  ptr : Ptr
  deleter : Nat
deriving Repr, DecidableEq

/-- The scan-visible fields of a `hazard_record` in the global list. -/
structure hazard_record where
  active : Bool
  protected_ptr : Option Ptr
deriving Repr, DecidableEq

/-- State touched by `schedule_deletion`: the global registry
(`hazard_list`, head first), its in-use counter `len_`, the global orphan
list (`global_retired`, most recently added rlist first) and the calling
thread's retirement list (`thread_retired.rlist`). -/
structure HazardState where
  records : List hazard_record
  len : Nat
  orphans : List (List RetiredEntry)
  rlist : List RetiredEntry
deriving Repr, DecidableEq

/-- First loop of `scan_delete()`: walk the whole registry and collect
every non-null `protected_ptr` into the snapshot set. -/
def snapshot (records : List hazard_record) : List Ptr :=
  records.filterMap fun r => r.protected_ptr

/-- Second loop of `scan_delete()`: for each retired entry in order, if its
pointer is not in the snapshot invoke its deleter (collected in the second
component), else push it onto `filtered` (the first component). -/
def scan_loop (snap : List Ptr) :
    List RetiredEntry → List RetiredEntry × List RetiredEntry
  | [] => ([], [])
  | e :: rest =>
    let p := scan_loop snap rest
    if snap.contains e.ptr then (e :: p.1, p.2) else (p.1, e :: p.2)

/-- Source `scan_delete()`: snapshot the registry, partition the thread's
retirement list against it, swap the kept entries back in.  Returns the
new state and the entries whose deleters ran, in order. -/
def scan_delete (s : HazardState) : HazardState × List RetiredEntry :=
  let snap := snapshot s.records
  let p := scan_loop snap s.rlist
  ({ s with rlist := p.1 }, p.2)

/-- Source `global_retired.steal(to_add)`: exchange the orphan head with
null, then walk the stolen nodes appending each node's rlist to the end of
`to_add`. -/
def steal (s : HazardState) : HazardState :=
  { s with rlist := s.rlist ++ s.orphans.flatten, orphans := [] }

/-- Source `hazard_record::schedule_deletion(ptr, deleter)`: emplace the
entry at the back of the thread's retirement list, steal the orphan list,
then scan when `rlist.size() >= 5 * hazard_list::len() / 4` (size_t
arithmetic, so the division truncates). -/
def schedule_deletion (s : HazardState) (ptr : Ptr) (deleter : Nat) :
    HazardState × List RetiredEntry :=
  let s1 : HazardState := { s with rlist := s.rlist ++ [⟨ptr, deleter⟩] }
  let s2 := steal s1
  if 5 * s2.len / 4 ≤ s2.rlist.length then scan_delete s2 else (s2, [])

/-- The claim's wording of the scan trigger, for comparison: scan exactly
when the retirement list's size strictly exceeds 5/4 times the number of
currently active hazard records (exact rational comparison:
`4 * size > 5 * active`). -/
def schedule_deletion_claim (s : HazardState) (ptr : Ptr) (deleter : Nat) :
    HazardState × List RetiredEntry :=
  let s1 : HazardState := { s with rlist := s.rlist ++ [⟨ptr, deleter⟩] }
  let s2 := steal s1
  if 5 * (s.records.countP fun r => r.active) < 4 * s2.rlist.length then
    scan_delete s2
  else (s2, [])

/-- A registry with one active hazard record protecting pointer 5, one
hazard pointer in use, no orphans, and an empty retirement list: the state
of a thread whose own hazard pointer protects node 5 just before it
retires another node. -/
def c3_state : HazardState := ⟨[⟨true, some 5⟩], 1, [], []⟩

/-! ### The registry as a transition system (for the deactivation ordering)

Every atomic access a thread performs on a `hazard_record`'s `active_` and
`protected_ptr_` fields is one step.  The ghost `owner` field records where
the owning thread stands: `owned` between a successful `capture()` (or the
constructor, which hands the fresh record to its creator `active_(1)`) and
the start of `deactivate()`; `deactivating` between `deactivate()`'s
`publish(nullptr)` and its `active_.store(false)`.  `publish` is only ever
called by the owning thread through `hazard_ptr::acquire`/`reset`. -/

/-- Ghost ownership status of a record. -/
inductive OwnerState where
  | free
  | owned
  | deactivating
deriving Repr, DecidableEq

/-- A `hazard_record` with its ghost owner field. -/
structure RecordState where
  active : Bool
  protected_ptr : Option Ptr
  owner : OwnerState
deriving Repr, DecidableEq

/-- One atomic step on the registry.
* `new_record`: `hazard_record()` constructs `active_(1),
  protected_ptr_(nullptr)` and `activated_record` CAS-prepends it;
* `capture`: CAS of `active_` from false to true;
* `publish`: the owner stores into `protected_ptr_` (acquire/reset);
* `deactivate_null`: `deactivate()`'s first store, `publish(nullptr)`;
* `deactivate_flag`: `deactivate()`'s second store,
  `active_.store(false)`. -/
inductive regStep : List RecordState → List RecordState → Prop
  | new_record (reg : List RecordState) :
      regStep reg (⟨true, none, OwnerState.owned⟩ :: reg)
  | capture (reg : List RecordState) (i : Nat) (r : RecordState)
      (h : reg.get? i = some r) (ha : r.active = false) :
      regStep reg (reg.set i ⟨true, r.protected_ptr, OwnerState.owned⟩)
  | publish (reg : List RecordState) (i : Nat) (r : RecordState)
      (p : Option Ptr) (h : reg.get? i = some r)
      (ho : r.owner = OwnerState.owned) :
      regStep reg (reg.set i ⟨r.active, p, OwnerState.owned⟩)
  | deactivate_null (reg : List RecordState) (i : Nat) (r : RecordState)
      (h : reg.get? i = some r) (ho : r.owner = OwnerState.owned) :
      regStep reg (reg.set i ⟨r.active, none, OwnerState.deactivating⟩)
  | deactivate_flag (reg : List RecordState) (i : Nat) (r : RecordState)
      (h : reg.get? i = some r) (ho : r.owner = OwnerState.deactivating) :
      regStep reg (reg.set i ⟨false, r.protected_ptr, OwnerState.free⟩)

/-- Registry states reachable from the initially empty global list. -/
inductive regReachable : List RecordState → Prop
  | init : regReachable []
  | step {reg reg' : List RecordState} :
      regReachable reg → regStep reg reg' → regReachable reg'

/-- Per-record invariant tying the ghost owner to the atomic fields. -/
def recordInv (r : RecordState) : Prop :=
  (r.owner = OwnerState.free → r.active = false ∧ r.protected_ptr = none) ∧
  (r.owner = OwnerState.deactivating → r.protected_ptr = none) ∧
  (r.owner ≠ OwnerState.free → r.active = true)

namespace atomic_optional

theorem invalidate_fst_initialized {α : Type} (a : atomic_optional α) :
    (invalidate a).1.initialized = false := by
  unfold invalidate
  by_cases h : a.initialized <;> simp [h]

theorem invalidate_snd_eq_valid {α : Type} (a : atomic_optional α) :
    (invalidate a).2 = valid a := by
  unfold invalidate valid
  by_cases h : a.initialized <;> simp [h]

theorem invalidate_store {α : Type} (a : atomic_optional α) :
    (invalidate a).1.store = a.store := by
  unfold invalidate
  by_cases h : a.initialized <;> simp [h]

theorem invalidateRun_wins_of_invalid {α : Type} (n : Nat)
    (a : atomic_optional α) (h : a.initialized = false) :
    (invalidateRun n a).2 = 0 := by
  induction n generalizing a with
  | zero => rfl
  | succ n ih =>
    simp only [invalidateRun, invalidate, h, if_false, Bool.false_eq_true,
      ite_false]
    simpa using ih a h

theorem invalidateRun_wins_le_one {α : Type} (n : Nat)
    (a : atomic_optional α) : (invalidateRun n a).2 ≤ 1 := by
  cases n with
  | zero => exact Nat.zero_le 1
  | succ n =>
    simp only [invalidateRun]
    by_cases h : a.initialized
    · simp only [invalidate, h, ite_true]
      have hz := invalidateRun_wins_of_invalid (α := α) n
        { a with initialized := false } rfl
      simp [hz]
    · simp only [invalidate, h, Bool.false_eq_true, ite_false]
      have := invalidateRun_wins_of_invalid (α := α) n a (by
        simpa using h)
      simp [this]

end atomic_optional

namespace hazard_queue

theorem aval_mkVal {α : Type} (v : α) :
    aval (atomic_optional.mkVal v) = some v := rfl

theorem valsL_append {α : Type} (c₁ c₂ : List (atomic_optional α)) :
    valsL (c₁ ++ c₂) = valsL c₁ ++ valsL c₂ := by
  simp [valsL]

theorem vals_enqueue {α : Type} (q : hazard_queue α) (v : α) :
    vals (enqueue q v) = vals q ++ [v] := by
  simp [vals, enqueue, enqueue_node, valsL_append, valsL, aval,
    atomic_optional.mkVal]

theorem wf_init (α : Type) : wf (init α) := by
  refine ⟨⟨by simp [init], ?_, ?_⟩, rfl⟩
  · intro n hn
    simp [init] at hn
  · intro n hn h
    simp [init, atomic_optional.mkEmpty] at hn
    subst hn
    simp at h

theorem wf_enqueue {α : Type} (q : hazard_queue α) (v : α) (h : wf q) :
    wf (enqueue q v) := by
  obtain ⟨⟨hne, htail, hsome⟩, hcnt⟩ := h
  refine ⟨⟨by simp [enqueue, enqueue_node], ?_, ?_⟩, ?_⟩
  · intro n hn
    simp only [enqueue, enqueue_node] at hn
    rcases List.exists_cons_of_ne_nil hne with ⟨hd, tl, hc⟩
    rw [hc] at hn htail
    simp only [List.cons_append, List.tail_cons] at hn
    rcases List.mem_append.mp hn with h' | h'
    · exact htail n (by simpa using h')
    · simp only [List.mem_singleton] at h'
      subst h'
      rfl
  · intro n hn hini
    simp only [enqueue, enqueue_node, List.mem_append] at hn
    rcases hn with h' | h'
    · exact hsome n h' hini
    · simp only [List.mem_singleton] at h'
      subst h'
      simp [atomic_optional.mkVal]
  · simp only [enqueue, enqueue_node, vals, valsL_append] at hcnt ⊢
    simp only [valsL, aval, atomic_optional.mkVal, List.filterMap_cons,
      ite_true, List.filterMap_nil, List.length_append, List.length_cons,
      List.length_nil] at hcnt ⊢
    omega

/-- Running `try_dequeue` on a chain holding no values: the queue reports empty and
the state is untouched. -/
theorem try_dequeue_empty_chain {α : Type} :
    ∀ (chain : List (atomic_optional α)) (i r : Nat), wfChain chain →
    valsL chain = [] →
    try_dequeue ⟨chain, i, r⟩ = (⟨chain, i, r⟩, none) := by
  intro chain
  induction chain with
  | nil =>
    intro i r hwf _
    exact absurd rfl hwf.1
  | cons n t ih =>
    intro i r hwf hv
    have hn : n.initialized = false := by
      by_cases h : n.initialized
      · exfalso
        have hs := hwf.2.2 n (List.mem_cons_self n t) h
        rcases Option.isSome_iff_exists.mp hs with ⟨w, hw⟩
        simp [valsL, List.filterMap_cons, aval, h, hw] at hv
      · simpa using h
    cases t with
    | nil =>
      simp [try_dequeue, try_dequeue_loop, atomic_optional.valid, hn]
    | cons m t' =>
      exfalso
      have hm : m.initialized = true := hwf.2.1 m (by simp)
      have hs := hwf.2.2 m (by simp) hm
      rcases Option.isSome_iff_exists.mp hs with ⟨w, hw⟩
      simp [valsL, List.filterMap_cons, aval, hn, hm, hw] at hv

/-- Running `try_dequeue` on a chain whose front value is `v`: the loop claims a
node, returns `v`, bumps `remove_version_`, and leaves a well-formed chain
holding the remaining values. -/
theorem try_dequeue_cons_chain {α : Type} :
    ∀ (chain : List (atomic_optional α)) (i r : Nat) (v : α) (rest : List α),
    wfChain chain → valsL chain = v :: rest →
    ∃ chain', try_dequeue ⟨chain, i, r⟩ = (⟨chain', i, r + 1⟩, some v) ∧
      wfChain chain' ∧ valsL chain' = rest := by
  intro chain
  induction chain with
  | nil =>
    intro i r v rest hwf _
    exact absurd rfl hwf.1
  | cons n t ih =>
    intro i r v rest hwf hv
    cases t with
    | nil =>
      by_cases hn : n.initialized
      · have hs := hwf.2.2 n (List.mem_cons_self n []) hn
        rcases Option.isSome_iff_exists.mp hs with ⟨w, hw⟩
        have hv' : v = w ∧ rest = [] := by
          simp [valsL, List.filterMap_cons, aval, hn, hw] at hv
          exact ⟨hv.1.symm, hv.2⟩
        obtain ⟨rfl, rfl⟩ := hv'
        refine ⟨[(atomic_optional.invalidate n).1], ?_, ?_, ?_⟩
        · simp [try_dequeue, try_dequeue_loop, atomic_optional.valid, hn, hw]
        · refine ⟨by simp, by simp, ?_⟩
          intro x hx hxi
          simp only [List.mem_singleton] at hx
          subst hx
          rw [atomic_optional.invalidate_fst_initialized] at hxi
          exact absurd hxi (by simp)
        · simp [valsL, List.filterMap_cons, aval,
            atomic_optional.invalidate_fst_initialized]
      · exfalso
        simp [valsL, List.filterMap_cons, aval, hn] at hv
    | cons m t' =>
      have hwf' : wfChain (m :: t') := by
        refine ⟨by simp, ?_, ?_⟩
        · intro x hx
          exact hwf.2.1 x (List.mem_cons_of_mem m (by simpa using hx))
        · intro x hx hxi
          exact hwf.2.2 x (List.mem_cons_of_mem n hx) hxi
      by_cases hn : n.initialized
      · have hs := hwf.2.2 n (List.mem_cons_self n (m :: t')) hn
        rcases Option.isSome_iff_exists.mp hs with ⟨w, hw⟩
        have hv' : v = w ∧ rest = valsL (m :: t') := by
          simp only [valsL, List.filterMap_cons, aval, hn, ite_true, hw,
            List.cons_eq_cons] at hv
          exact ⟨hv.1.symm, hv.2.symm⟩
        obtain ⟨rfl, rfl⟩ := hv'
        refine ⟨m :: t', ?_, hwf', rfl⟩
        simp [try_dequeue, try_dequeue_loop, atomic_optional.valid, hn, hw]
      · have hv' : valsL (m :: t') = v :: rest := by
          simpa [valsL, List.filterMap_cons, aval, hn] using hv
        obtain ⟨chain', heq, hwfc, hvc⟩ := ih i r v rest hwf' hv'
        refine ⟨chain', ?_, hwfc, hvc⟩
        simpa [try_dequeue, try_dequeue_loop, atomic_optional.valid, hn] using heq

theorem try_dequeue_of_vals_nil {α : Type} (q : hazard_queue α)
    (h : wf q) (hv : vals q = []) : try_dequeue q = (q, none) := by
  obtain ⟨chain, i, r⟩ := q
  exact try_dequeue_empty_chain chain i r h.1 hv

theorem try_dequeue_of_vals_cons {α : Type} (q : hazard_queue α)
    (v : α) (rest : List α) (h : wf q) (hv : vals q = v :: rest) :
    (try_dequeue q).2 = some v ∧ vals (try_dequeue q).1 = rest ∧
      wf (try_dequeue q).1 ∧
      (try_dequeue q).1.insert_version = q.insert_version ∧
      (try_dequeue q).1.remove_version = q.remove_version + 1 := by
  obtain ⟨chain, i, r⟩ := q
  obtain ⟨chain', heq, hwfc, hvc⟩ :=
    try_dequeue_cons_chain chain i r v rest h.1 hv
  have hcnt := h.2
  simp only [vals] at hcnt
  have hv' : valsL chain = v :: rest := hv
  rw [hv'] at hcnt
  rw [heq]
  refine ⟨rfl, hvc, ⟨hwfc, ?_⟩, rfl, rfl⟩
  simp only [vals, hvc]
  simp only [List.length_cons] at hcnt
  omega

theorem wf_try_dequeue {α : Type} (q : hazard_queue α) (h : wf q) :
    wf (try_dequeue q).1 := by
  cases hv : vals q with
  | nil => rw [try_dequeue_of_vals_nil q h hv]; exact h
  | cons v rest => exact (try_dequeue_of_vals_cons q v rest h hv).2.2.1

theorem reachable_wf {α : Type} (q : hazard_queue α) (h : reachable q) :
    wf q := by
  induction h with
  | init => exact wf_init α
  | enq v _ ih => exact wf_enqueue _ v ih
  | deq _ ih => exact wf_try_dequeue _ ih

/-- One `dequeue()` attempt with fuel 1 is exactly one `try_dequeue`. -/
theorem dequeue_fuel_one {α : Type} (q : hazard_queue α) :
    dequeue_fuel 1 q = try_dequeue q := by
  unfold dequeue_fuel
  rcases h : try_dequeue q with ⟨q', out⟩
  cases out <;> simp [dequeue_fuel]

theorem vals_enqueueAll {α : Type} (vs : List α) :
    ∀ q : hazard_queue α, vals (enqueueAll q vs) = vals q ++ vs := by
  induction vs with
  | nil => intro q; simp [enqueueAll]
  | cons v vs ih =>
    intro q
    show vals (enqueueAll (enqueue q v) vs) = _
    rw [ih, vals_enqueue]
    simp

theorem wf_enqueueAll {α : Type} (vs : List α) :
    ∀ q : hazard_queue α, wf q → wf (enqueueAll q vs) := by
  induction vs with
  | nil => intro q h; exact h
  | cons v vs ih =>
    intro q h
    exact ih (enqueue q v) (wf_enqueue q v h)

theorem dequeueN_of_vals {α : Type} (vs : List α) :
    ∀ q : hazard_queue α, wf q → vals q = vs →
    (dequeueN vs.length q).2 = vs.map some := by
  induction vs with
  | nil => intro q _ _; rfl
  | cons v rest ih =>
    intro q h hv
    obtain ⟨hout, hvals, hwf', _, _⟩ := try_dequeue_of_vals_cons q v rest h hv
    show ((dequeue_fuel 1 q).2 :: (dequeueN rest.length (dequeue_fuel 1 q).1).2)
      = some v :: rest.map some
    rw [dequeue_fuel_one, hout, ih (try_dequeue q).1 hwf' hvals]

theorem vals_init (α : Type) : vals (init α) = [] := rfl

theorem valsL_length_of_all_valid {α : Type} :
    ∀ t : List (atomic_optional α),
    (∀ m ∈ t, m.initialized = true) →
    (∀ m ∈ t, m.initialized = true → m.store.isSome) →
    (valsL t).length = t.length := by
  intro t
  induction t with
  | nil => intro _ _; rfl
  | cons m t' ih =>
    intro h1 h2
    have hm : m.initialized = true := h1 m (by simp)
    rcases Option.isSome_iff_exists.mp (h2 m (by simp) hm) with ⟨w, hw⟩
    have := ih (fun x hx => h1 x (by simp [hx]))
      (fun x hx hxi => h2 x (by simp [hx]) hxi)
    simp [valsL, List.filterMap_cons, aval, hm, hw] at this ⊢
    exact this

theorem try_dequeue_version_counts {α : Type} (q : hazard_queue α)
    (h : wf q) :
    (try_dequeue q).1.insert_version = q.insert_version ∧
    (try_dequeue q).1.remove_version =
      q.remove_version + (if (try_dequeue q).2.isSome then 1 else 0) := by
  cases hv : vals q with
  | nil =>
    rw [try_dequeue_of_vals_nil q h hv]
    simp
  | cons v rest =>
    obtain ⟨hout, _, _, hi, hr⟩ := try_dequeue_of_vals_cons q v rest h hv
    simp [hout, hi, hr]

theorem runOps_versions {α : Type} :
    ∀ (ops : List (QOp α)) (q : hazard_queue α), wf q →
    (runOps q ops).1.insert_version = q.insert_version + countEnqs ops ∧
    (runOps q ops).1.remove_version =
      q.remove_version + countSomes (runOps q ops).2 := by
  intro ops
  induction ops with
  | nil => intro q _; simp [runOps, countEnqs, countSomes]
  | cons op ops ih =>
    intro q hq
    cases op with
    | enq v =>
      have h := ih (enqueue q v) (wf_enqueue q v hq)
      simp only [runOps] at h ⊢
      simp only [countEnqs, List.countP_cons, enqueue, enqueue_node] at h ⊢
      simp at h ⊢
      omega
    | deq =>
      have hv := try_dequeue_version_counts q hq
      have h := ih (try_dequeue q).1 (wf_try_dequeue q hq)
      simp only [runOps, countEnqs, countSomes, List.countP_cons] at h ⊢
      refine ⟨?_, ?_⟩
      · rw [h.1, hv.1]
        simp
      · rw [h.2, hv.2]
        cases ho : (try_dequeue q).2
        · simp [ho]
        · simp [ho]
          omega

end hazard_queue

theorem scan_loop_eq_filter (snap : List Ptr) :
    ∀ l : List RetiredEntry,
    scan_loop snap l =
      (l.filter (fun e => snap.contains e.ptr),
       l.filter (fun e => !(snap.contains e.ptr))) := by
  intro l
  induction l with
  | nil => rfl
  | cons e rest ih =>
    simp only [scan_loop, ih, List.filter_cons]
    by_cases h : e.ptr ∈ snap
    · simp [h]
    · simp [h]

theorem mem_snapshot_iff (records : List hazard_record) (p : Ptr) :
    p ∈ snapshot records ↔ ∃ r ∈ records, r.protected_ptr = some p := by
  simp [snapshot, List.mem_filterMap]

theorem regStep_inv {reg reg' : List RecordState} (hs : regStep reg reg')
    (h : ∀ r ∈ reg, recordInv r) : ∀ r ∈ reg', recordInv r := by
  cases hs with
  | new_record =>
    intro r hr
    rcases List.mem_cons.mp hr with rfl | hr
    · exact ⟨fun hf => by simp at hf, fun hf => rfl, fun _ => rfl⟩
    · exact h r hr
  | capture i r0 hget ha =>
    intro r hr
    rcases List.mem_or_eq_of_mem_set hr with hr | rfl
    · exact h r hr
    · refine ⟨fun hf => by simp at hf, fun hf => by simp at hf, fun _ => rfl⟩
  | publish i r0 p hget ho =>
    intro r hr
    rcases List.mem_or_eq_of_mem_set hr with hr | rfl
    · exact h r hr
    · have hr0 := h r0 (List.get?_mem hget)
      refine ⟨fun hf => by simp at hf, fun hf => by simp at hf, fun _ => ?_⟩
      exact hr0.2.2 (by simp [ho])
  | deactivate_null i r0 hget ho =>
    intro r hr
    rcases List.mem_or_eq_of_mem_set hr with hr | rfl
    · exact h r hr
    · have hr0 := h r0 (List.get?_mem hget)
      refine ⟨fun hf => by simp at hf, fun _ => rfl, fun _ => ?_⟩
      exact hr0.2.2 (by simp [ho])
  | deactivate_flag i r0 hget ho =>
    intro r hr
    rcases List.mem_or_eq_of_mem_set hr with hr | rfl
    · exact h r hr
    · have hr0 := h r0 (List.get?_mem hget)
      refine ⟨fun _ => ⟨rfl, hr0.2.1 ho⟩, fun hf => by simp at hf,
        fun hnf => absurd rfl hnf⟩

theorem regReachable_inv {reg : List RecordState} (h : regReachable reg) :
    ∀ r ∈ reg, recordInv r := by
  induction h with
  | init => intro r hr; simp at hr
  | step _ hs ih => exact regStep_inv hs ih

/-- C1: Sequential FIFO correctness.  A single thread enqueues `vs` with no
interleaved dequeues; `vs.length` subsequent dequeues (each a blocking
`dequeue()`, completing on its first `try_dequeue` attempt) return exactly
the values of `vs` in order. -/
theorem single_producer_fifo (α : Type) (vs : List α) :
    (dequeueN vs.length (enqueueAll (init α) vs)).2 = vs.map some :=
  dequeueN_of_vals vs _ (wf_enqueueAll vs _ (wf_init α))
    (by rw [vals_enqueueAll]; simp [vals_init])

/-- C6 counterexample: after `enqueue 1; enqueue 2; dequeue` — a reachable
state — the chain from head to tail holds exactly 1 node and that node
holds a valid value, so the chain does not contain one more node than it
contains valid values. -/
theorem sentinel_surplus_refuted :
    reachable c6_state ∧
      ¬ c6_state.chain.length = (vals c6_state).length + 1 :=
  ⟨reachable.deq (reachable.enq 2 (reachable.enq 1 reachable.init)),
    by decide⟩

/-- C6 amended: in every reachable state, every node behind the head holds
a valid value, so the chain holds either exactly as many nodes as valid
values (the head node's value is still valid) or one more (the head is a
spent, valueless sentinel).  The extra sentinel node is not persistent: a
dequeue that excises the head leaves the next valid node as the new
head. -/
theorem chain_length_vals_length (α : Type) (q : hazard_queue α)
    (h : reachable q) :
    q.chain.length = (vals q).length ∨
      q.chain.length = (vals q).length + 1 := by
  obtain ⟨⟨hne, htail, hsome⟩, _⟩ := reachable_wf q h
  obtain ⟨n, t, hc⟩ := List.exists_cons_of_ne_nil hne
  simp only [vals]
  rw [hc] at htail hsome ⊢
  simp only [List.tail_cons] at htail
  have hts : (valsL t).length = t.length :=
    valsL_length_of_all_valid t htail
      (fun m hm hmi => hsome m (List.mem_cons_of_mem n hm) hmi)
  by_cases hn : n.initialized
  · rcases Option.isSome_iff_exists.mp (hsome n (by simp) hn) with ⟨w, hw⟩
    left
    simp only [valsL, List.filterMap_cons, aval, hn, ite_true, hw] at hts ⊢
    simp [hts]
  · right
    simp only [valsL, List.filterMap_cons, aval, hn] at hts ⊢
    simp [hts]

/-- C6 amended, witnessed at the freshly constructed queue. -/
theorem chain_length_vals_length_witness :
    reachable (init Nat) ∧
      ((init Nat).chain.length = (vals (init Nat)).length ∨
        (init Nat).chain.length = (vals (init Nat)).length + 1) :=
  ⟨reachable.init, chain_length_vals_length Nat (init Nat) reachable.init⟩

/-- C7: the node is constructed strictly before any CAS; if allocation
fails the queue's visible state (chain — hence head, tail and every
`next_` pointer — and both version counters) is unchanged, allocation
failure is the only failing outcome, and once a node exists the linking
phase always succeeds. -/
theorem enqueue_strong_guarantee (α : Type) (q : hazard_queue α) :
    (enqueue_alloc q none).1.chain = q.chain ∧
    (enqueue_alloc q none).1.insert_version = q.insert_version ∧
    (enqueue_alloc q none).1.remove_version = q.remove_version ∧
    (enqueue_alloc q none).2 = false ∧
    (∀ n, (enqueue_alloc q (some n)).2 = true) ∧
    (∀ v, enqueue_alloc q (some (atomic_optional.mkVal v)) =
      (enqueue q v, true)) :=
  ⟨rfl, rfl, rfl, rfl, fun _ => rfl, fun _ => rfl⟩

/-- C8: on an empty queue `try_dequeue` returns the explicit empty
optional and leaves the state untouched; emptiness is a value, not an
exception (in the embedding every operation is a total function into
`Option`). -/
theorem try_dequeue_empty_returns_none (α : Type) (q : hazard_queue α)
    (h : reachable q) (hv : vals q = []) :
    try_dequeue q = (q, none) :=
  try_dequeue_of_vals_nil q (reachable_wf q h) hv

/-- C8 witnessed at the freshly constructed (empty) queue. -/
theorem try_dequeue_empty_returns_none_witness :
    reachable (init Nat) ∧ vals (init Nat) = [] ∧
      try_dequeue (init Nat) = (init Nat, none) :=
  ⟨reachable.init, rfl,
    try_dequeue_empty_returns_none Nat (init Nat) reachable.init rfl⟩

/-- C9: the observer `empty()` returns `insert_version == remove_version`; over any
single-threaded operation script run from the constructor,
`insert_version` counts completed enqueues and `remove_version` counts
value-returning dequeues, so `empty()` reports true exactly when those two
counts agree — in particular after `k` enqueues and `k` successful
dequeues. -/
theorem empty_iff_enqueues_eq_successful_dequeues (α : Type)
    (ops : List (QOp α)) :
    empty (runOps (init α) ops).1 = true ↔
      countEnqs ops = countSomes (runOps (init α) ops).2 := by
  obtain ⟨h1, h2⟩ := runOps_versions ops (init α) (wf_init α)
  have hi : (init α).insert_version = 0 := rfl
  have hr : (init α).remove_version = 0 := rfl
  rw [hi, Nat.zero_add] at h1
  rw [hr, Nat.zero_add] at h2
  simp only [empty, h1, h2, beq_iff_eq]

/-! ### Claim theorems for the reclamation facility -/

/-- C3 counterexample: in `c3_state` (one active hazard record, one hazard
pointer in use, empty retirement list), `schedule_deletion 7` brings the
list to size 1, which does **not** exceed 5/4 × 1 active record — yet the
code's `size >= 5 * len() / 4` test (truncating size_t division: `⌊5/4⌋ =
1`) fires, the scan runs, and the deleter of pointer 7 is invoked.  The
claim's trigger would have kept the entry. -/
theorem schedule_deletion_trigger_refuted :
    (schedule_deletion c3_state 7 0).2 = [⟨7, 0⟩] ∧
      ¬ 5 * (c3_state.records.countP fun r => r.active) < 4 * 1 ∧
      schedule_deletion c3_state 7 0 ≠ schedule_deletion_claim c3_state 7 0 := by
  refine ⟨by decide, by decide, by decide⟩

/-- C3 amended: `schedule_deletion(ptr, deleter)` first appends the entry
to the calling thread's retirement list, then steals the whole orphan list
into it (in orphan-stack order), and then runs a scan if and only if the
resulting list's size is **at least** `⌊5·len/4⌋`, where `len` is the
registry's count of hazard pointers in use (not re-read after the steal:
`steal` leaves it untouched). -/
theorem schedule_deletion_append_steal_scan (s : HazardState)
    (p : Ptr) (d : Nat) :
    schedule_deletion s p d =
      (if 5 * s.len / 4 ≤
          (s.rlist ++ [RetiredEntry.mk p d] ++ s.orphans.flatten).length
       then scan_delete ⟨s.records, s.len, [],
         s.rlist ++ [RetiredEntry.mk p d] ++ s.orphans.flatten⟩
       else (⟨s.records, s.len, [],
         s.rlist ++ [RetiredEntry.mk p d] ++ s.orphans.flatten⟩, [])) := by
  simp only [schedule_deletion, steal, List.append_assoc]

/-- C5: `scan_delete` snapshots every non-null `protected_ptr` across the
whole registry; an entry's deleter runs (in list order) and the entry is
dropped exactly when its pointer is absent from the snapshot; precisely
the remaining entries are retained, in order, and nothing else of the
state changes. -/
theorem scan_delete_partitions (s : HazardState) :
    (scan_delete s).1.rlist =
      s.rlist.filter (fun e => (snapshot s.records).contains e.ptr) ∧
    (scan_delete s).2 =
      s.rlist.filter (fun e => !((snapshot s.records).contains e.ptr)) ∧
    (∀ e : RetiredEntry, e ∈ (scan_delete s).2 ↔
      e ∈ s.rlist ∧ ¬ ∃ r ∈ s.records, r.protected_ptr = some e.ptr) ∧
    (∀ e : RetiredEntry, e ∈ (scan_delete s).1.rlist ↔
      e ∈ s.rlist ∧ ∃ r ∈ s.records, r.protected_ptr = some e.ptr) ∧
    (scan_delete s).1.records = s.records ∧
    (scan_delete s).1.orphans = s.orphans ∧
    (scan_delete s).1.len = s.len := by
  have hloop := scan_loop_eq_filter (snapshot s.records) s.rlist
  refine ⟨?_, ?_, ?_, ?_, rfl, rfl, rfl⟩
  · simp [scan_delete, hloop]
  · simp [scan_delete, hloop]
  · intro e
    simp [scan_delete, hloop, List.mem_filter, mem_snapshot_iff]
  · intro e
    simp [scan_delete, hloop, List.mem_filter, mem_snapshot_iff]

/-- C4: `deactivate()` nulls `protected_ptr_` strictly before storing
`active_ = false` (the two separate steps `deactivate_null` then
`deactivate_flag`); consequently, in every reachable registry state, every
record with `active == false` has a null protected pointer — so the record
a `capture()` CAS (false → true) can seize never holds a stale pointer
from a previous occupant. -/
theorem inactive_record_ptr_null (reg : List RecordState)
    (h : regReachable reg) :
    ∀ r ∈ reg, r.active = false → r.protected_ptr = none := by
  intro r hr hact
  have hi := regReachable_inv h r hr
  by_cases ho : r.owner = OwnerState.free
  · exact (hi.1 ho).2
  · exact absurd (hi.2.2 ho) (by simp [hact])

/-- C4 witnessed on a concrete reachable registry: create a record, run
the two deactivation steps; the resulting inactive record has a null
pointer. -/
theorem inactive_record_ptr_null_witness :
    regReachable [⟨false, none, OwnerState.free⟩] ∧
      ∀ r ∈ [(⟨false, none, OwnerState.free⟩ : RecordState)],
        r.active = false → r.protected_ptr = none := by
  have h1 : regReachable ([] : List RecordState) := regReachable.init
  have h2 := regReachable.step h1 (regStep.new_record [])
  have h3 := regReachable.step h2
    (regStep.deactivate_null [⟨true, none, OwnerState.owned⟩] 0
      ⟨true, none, OwnerState.owned⟩ rfl rfl)
  have h4 := regReachable.step h3
    (regStep.deactivate_flag [⟨true, none, OwnerState.deactivating⟩] 0
      ⟨true, none, OwnerState.deactivating⟩ rfl rfl)
  have hreach : regReachable [⟨false, none, OwnerState.free⟩] := h4
  exact ⟨hreach, inactive_record_ptr_null _ hreach⟩

/-- C10: `invalidate()` returns true iff the slot was valid at the call;
afterwards the slot is invalid; and across any number of consecutive
`invalidate()` calls with no re-initialization, at most one returns true —
the single-slot claim mechanism of `try_dequeue`'s one-element path. -/
theorem invalidate_at_most_one_winner (α : Type) (a : atomic_optional α)
    (n : Nat) :
    ((atomic_optional.invalidate a).2 = true ↔ a.valid = true) ∧
    (atomic_optional.invalidate a).1.valid = false ∧
    (atomic_optional.invalidateRun n a).2 ≤ 1 := by
  refine ⟨?_, ?_, atomic_optional.invalidateRun_wins_le_one n a⟩
  · rw [atomic_optional.invalidate_snd_eq_valid]
  · show (atomic_optional.invalidate a).1.initialized = false
    exact atomic_optional.invalidate_fst_initialized a

end CppUtil
